import Mathlib

/-
Verification of the CommandPalette fuzzy search engine.

Shallow embedding of src/features/commandPalette/utils/fuzzySearch.ts and of
the selection logic of src/features/commandPalette/hooks/useCommandPalette.ts.

Modelling conventions:
  - JavaScript strings are lists of code points (List Nat).  The case maps
    toLowerCase/toUpperCase are modelled on the ASCII range (the repository
    only searches over such text); the whitespace class of the regexes \s
    is modelled by the ASCII whitespace code points.
  - JavaScript numbers are modelled as exact rationals.
  - localeCompare is modelled as code-point lexicographic comparison.
  - Array.prototype.sort is a stable sort (List.mergeSort), per the
    ECMAScript specification.
  - The optional limit argument is an optional natural number.
-/

namespace CommandPalette

/-- JS strings as lists of code points. -/
abbrev Str := List Nat

/-- Convenience conversion from a Lean string literal to the code-point model. -/
def str (s : String) : Str := s.data.map Char.toNat

/-- ASCII whitespace code points, modelling the regex class \s. -/
def isWhitespaceCode (c : Nat) : Bool :=
  c = 32 || c = 9 || c = 10 || c = 13 || c = 11 || c = 12

/-- Code-point case map modelling String.prototype.toLowerCase on ASCII. -/
def jsToLowerCode (c : Nat) : Nat := if 65 ≤ c ∧ c ≤ 90 then c + 32 else c

/-- Code-point case map modelling String.prototype.toUpperCase on ASCII. -/
def jsToUpperCode (c : Nat) : Nat := if 97 ≤ c ∧ c ≤ 122 then c - 32 else c

/-- String.prototype.toLowerCase. -/
def toLowerStr (s : Str) : Str := s.map jsToLowerCode

/-- String.prototype.toUpperCase. -/
def toUpperStr (s : Str) : Str := s.map jsToUpperCode

/-- String.prototype.trim: drop leading and trailing whitespace. -/
def trimStr (s : Str) : Str :=
  ((s.dropWhile isWhitespaceCode).reverse.dropWhile isWhitespaceCode).reverse

/-- Replace each maximal whitespace run by a single space; the recursion flag
records whether the previous code point was inside a whitespace run.  This
models String.prototype.replace with the global regex \s+ and replacement " ". -/
def collapseWSAux : Bool → Str → Str
  | _, [] => []
  | inRun, c :: rest =>
      if isWhitespaceCode c then
        if inRun then collapseWSAux true rest else 32 :: collapseWSAux true rest
      else c :: collapseWSAux false rest

/-- Collapse every whitespace run to one space (replace of \s+ by " "). -/
def collapseWS (s : Str) : Str := collapseWSAux false s

/-- Source function normalize: lowercase, trim, collapse inner whitespace.
Mirrors text.toLowerCase().trim().replace of fuzzySearch.ts. -/
def normalize (text : Str) : Str := collapseWS (trimStr (toLowerStr text))

/-- Source function tokenize: split the query on whitespace runs, trim each
piece, drop empty pieces.  split on the regex \s+ is modelled by splitting at
every whitespace code point and dropping the empty chunks, which yields the
same non-empty chunks. -/
def tokenize (query : Str) : List Str :=
  ((query.splitOnP isWhitespaceCode).map trimStr).filter (fun t => !t.isEmpty)

/-- Search weights of fuzzySearch.ts (type SearchWeights). -/
structure SearchWeights where
  titleWeight : ℚ
  keywordWeight : ℚ
  prefixScore : ℚ
  substringScore : ℚ
  maxSubsequenceScore : ℚ
  coverageWeight : ℚ
  relevanceWeight : ℚ
deriving DecidableEq

/-- Default weights of fuzzySearch.ts (constant DEFAULT_WEIGHTS). -/
def DEFAULT_WEIGHTS : SearchWeights where
  titleWeight := 7/10
  keywordWeight := 3/10
  prefixScore := 1
  substringScore := 8/10
  maxSubsequenceScore := 6/10
  coverageWeight := 15/100
  relevanceWeight := 85/100

/-- A partial weight override (TypeScript Partial of SearchWeights). -/
structure PartialSearchWeights where
  titleWeight : Option ℚ := none
  keywordWeight : Option ℚ := none
  prefixScore : Option ℚ := none
  substringScore : Option ℚ := none
  maxSubsequenceScore : Option ℚ := none
  coverageWeight : Option ℚ := none
  relevanceWeight : Option ℚ := none
deriving DecidableEq

/-- The empty override object. -/
def noOverrides : PartialSearchWeights := {}

/-- Spread merge of a partial override over a base, modelling the object
spread in searchCommands. -/
def mergeWeights (base : SearchWeights) (p : PartialSearchWeights) : SearchWeights where
  titleWeight := p.titleWeight.getD base.titleWeight
  keywordWeight := p.keywordWeight.getD base.keywordWeight
  prefixScore := p.prefixScore.getD base.prefixScore
  substringScore := p.substringScore.getD base.substringScore
  maxSubsequenceScore := p.maxSubsequenceScore.getD base.maxSubsequenceScore
  coverageWeight := p.coverageWeight.getD base.coverageWeight
  relevanceWeight := p.relevanceWeight.getD base.relevanceWeight

/-- Source function clamp01. -/
def clamp01 (value : ℚ) : ℚ :=
  if value < 0 then 0 else if 1 < value then 1 else value

/-- A searchable command record (commandPalette.types, type Command).  The
attached zero-argument handler is opaque to scoring and omitted here. -/
structure Command where
  id : Str
  title : Str
  keywords : List Str
deriving DecidableEq

/-- Interface IndexedCommand of fuzzySearch.ts. -/
structure IndexedCommand where
  command : Command
  normalizedTitle : Str
  normalizedKeywords : Str
deriving DecidableEq

/-- Type SearchResult. -/
structure SearchResult where
  command : Command
  score : ℚ
deriving DecidableEq

/-- Source function buildCommandIndex. -/
def buildCommandIndex (commands : List Command) : List IndexedCommand :=
  commands.map (fun command =>
    ⟨command, normalize command.title,
      normalize (List.intercalate (str " ") command.keywords)⟩)

/-- String.prototype.includes: the token occurs contiguously somewhere in the
candidate.  Recursion over the candidate, testing the token as a prefix at
each position. -/
def jsIncludes (candidate token : Str) : Bool :=
  token.isPrefixOf candidate ||
    match candidate with
    | [] => false
    | _ :: rest => jsIncludes rest token

/-- The scanning loop of scoreSubsequence: walk the candidate once, greedily
consuming token code points in order; returns the unconsumed rest of the
token together with the index of the first consumed code point (the loop
variables tokenIdx and firstMatchIndex, with -1 rendered as none). -/
def subseqScan : Str → Str → Nat → Option Nat → Str × Option Nat
  | tok, [], _, fmi => (tok, fmi)
  | [], _ :: _, _, fmi => ([], fmi)
  | t :: ts, c :: cs, i, fmi =>
      if c = t then
        subseqScan ts cs (i + 1) (match fmi with | none => some i | some j => some j)
      else
        subseqScan (t :: ts) cs (i + 1) fmi

/-- Source function scoreSubsequence (the fallback tier).  The first
component of the scan is the unconsumed token rest (the check tokenIdx !==
token.length), the second the first match index (-1 rendered as none). -/
def scoreSubsequence (token candidate : Str) (maxScore : ℚ) : ℚ :=
  if token.isEmpty then 0
  else if candidate.length < token.length then 0
  else if !(subseqScan token candidate 0 none).1.isEmpty then 0
  else
    match (subseqScan token candidate 0 none).2 with
    | none => 0
    | some firstMatchIndex =>
        clamp01 (1 - (firstMatchIndex : ℚ) / (candidate.length : ℚ)) * maxScore

/-- Source function scoreTokenAgainstCandidate: prefix, then substring, then
subsequence fallback. -/
def scoreTokenAgainstCandidate (token candidate : Str) (weights : SearchWeights) : ℚ :=
  if token.isEmpty then 0
  else if candidate.isEmpty then 0
  else if token.isPrefixOf candidate then weights.prefixScore
  else if jsIncludes candidate token then weights.substringScore
  else scoreSubsequence token candidate weights.maxSubsequenceScore

/-- Source function scoreToken: weighted sum of the title and keyword field
scores, clamped. -/
def scoreToken (token : Str) (indexed : IndexedCommand) (weights : SearchWeights) : ℚ :=
  clamp01 (scoreTokenAgainstCandidate token indexed.normalizedTitle weights * weights.titleWeight
    + scoreTokenAgainstCandidate token indexed.normalizedKeywords weights * weights.keywordWeight)

/-- Source function scoreQueryTokens: the loop accumulates the number of
matched tokens and the sum of the per-token scores, then combines average and
coverage. -/
def scoreQueryTokens (tokens : List Str) (indexed : IndexedCommand)
    (weights : SearchWeights) : ℚ :=
  if tokens.isEmpty then 0
  else
    let acc := tokens.foldl
      (fun (acc : Nat × ℚ) token =>
        let s := scoreToken token indexed weights
        (if 0 < s then acc.1 + 1 else acc.1, acc.2 + s))
      (0, 0)
    let avg := acc.2 / (tokens.length : ℚ)
    let coverage := (acc.1 : ℚ) / (tokens.length : ℚ)
    clamp01 (avg * weights.relevanceWeight + coverage * weights.coverageWeight)

/-- Code-point lexicographic order on strings, modelling the ordering that
id.localeCompare induces in the sort comparators. -/
def strLe : Str → Str → Bool
  | [], _ => true
  | _ :: _, [] => false
  | a :: s, b :: t => decide (a < b) || (decide (a = b) && strLe s t)

/-- The comparator of the empty-query path: ascending id. -/
def idLe (a b : Command) : Bool := strLe a.id b.id

/-- The comparator of the ranked path: descending score, ties by ascending id. -/
def resultLe (a b : SearchResult) : Bool :=
  if a.score = b.score then strLe a.command.id b.command.id else decide (b.score < a.score)

/-- Array.prototype.slice(0, limit) with an optional limit. -/
def takeOpt {α : Type} (limit : Option Nat) (l : List α) : List α :=
  match limit with
  | none => l
  | some n => l.take n

/-- The optional config argument of searchCommands. -/
structure SearchConfig where
  indexedCommands : Option (List IndexedCommand) := none
  weights : Option PartialSearchWeights := none
deriving DecidableEq

/-- Source function searchCommands. -/
def searchCommands (query : Str) (commands : List Command) (limit : Option Nat)
    (config : Option SearchConfig) : List SearchResult :=
  let normalizedQuery := normalize query
  if normalizedQuery.isEmpty then
    (takeOpt limit (commands.mergeSort idLe)).map (fun command => ⟨command, 0⟩)
  else
    let weights := mergeWeights DEFAULT_WEIGHTS ((config.bind SearchConfig.weights).getD noOverrides)
    let tokens := tokenize normalizedQuery
    if tokens.isEmpty then []
    else
      let indexedCommands :=
        (config.bind SearchConfig.indexedCommands).getD (buildCommandIndex commands)
      let results :=
        ((indexedCommands.map (fun indexed =>
            (⟨indexed.command, scoreQueryTokens tokens indexed weights⟩ : SearchResult))).filter
          (fun r => decide (0 < r.score))).mergeSort resultLe
      takeOpt limit results

/-!
Store model for the mutation contract.  The caller's command array lives in a
store of arrays addressed by references; operations that JavaScript performs
in place (Array.prototype.sort) are modelled as store updates on the
reference they are invoked on.  searchCommands touches stored Command arrays
only on the empty-query path, where it spreads the input into a fresh array
and sorts that fresh array; the ranked path reads the input array and builds
fresh intermediate arrays of results (map, filter, slice all allocate), none
of which aliases a stored Command array.
-/

/-- A heap of Command arrays; a reference is an index into it. -/
abbrev Store := List (List Command)

/-- Read the array a reference denotes. -/
def storeGet (st : Store) (r : Nat) : List Command := st.getD r []

/-- Allocate a fresh array (the spread copy) and return its reference. -/
def storeAlloc (st : Store) (a : List Command) : Nat × Store := (st.length, st ++ [a])

/-- Overwrite the array a reference denotes (an in-place mutation). -/
def storeSet (st : Store) (r : Nat) (a : List Command) : Store := st.set r a

/-- Source function searchCommands with its use of the caller's array made
explicit: the empty-query path copies the input array into a fresh reference
and sorts that reference in place; the ranked path only reads the input. -/
def searchCommandsStore (query : Str) (commandsRef : Nat) (limit : Option Nat)
    (config : Option SearchConfig) (st : Store) : List SearchResult × Store :=
  let commands := storeGet st commandsRef
  let normalizedQuery := normalize query
  if normalizedQuery.isEmpty then
    let alloc := storeAlloc st commands
    let st2 := storeSet alloc.2 alloc.1 ((storeGet alloc.2 alloc.1).mergeSort idLe)
    ((takeOpt limit (storeGet st2 alloc.1)).map (fun command => ⟨command, 0⟩), st2)
  else
    (searchCommands query commands limit config, st)

/-!
Selection model of useCommandPalette.  The hook keeps isOpen (mirrored from
the controlling parent through onOpenChange), the query text and a raw
activeIndex; the results list and the exposed safeActiveIndex are derived on
every render.
-/

/-- Source function wrapIndex of useCommandPalette.ts; the JavaScript
remainder operator is the truncating Int.tmod. -/
def wrapIndex (index length : Int) : Int :=
  if length ≤ 0 then 0 else ((index.tmod length) + length).tmod length

/-- The hook resolves options.resultLimit against DEFAULT_RESULT_LIMIT = 50. -/
def resolveResultLimit (resultLimitOpt : Option Nat) : Nat := resultLimitOpt.getD 50

/-- The hook state: the controlled isOpen flag and the two useState cells. -/
structure HookState where
  isOpen : Bool
  query : Str
  activeIndex : Int
deriving DecidableEq

/-- The derived results memo: empty while closed, otherwise a searchCommands
call with the resolved limit and the memoized index. -/
def hookResults (commands : List Command) (lim : Nat) (s : HookState) : List SearchResult :=
  if s.isOpen then
    searchCommands s.query commands (some lim) (some ⟨some (buildCommandIndex commands), none⟩)
  else []

/-- The derived safeActiveIndex memo, the activeIndex value the hook returns. -/
def safeActiveIndex (commands : List Command) (lim : Nat) (s : HookState) : Int :=
  if (hookResults commands lim s).length = 0 then 0
  else wrapIndex s.activeIndex ((hookResults commands lim s).length : Int)

/-- The state-changing actions of the hook. -/
inductive HookOp where
  | openPalette
  | closePalette
  | togglePalette
  | setQueryOp (next : Str)
  | moveActiveOp (delta : Int)

/-- One action applied to the hook state, following the source: open, close
and toggle reset query and activeIndex; setQuery resets activeIndex; a move
is ignored while closed or with no results and otherwise wraps the raw
index plus delta modulo the result count. -/
def hookStep (commands : List Command) (lim : Nat) (op : HookOp) (s : HookState) : HookState :=
  match op with
  | .openPalette => ⟨true, [], 0⟩
  | .closePalette => ⟨false, [], 0⟩
  | .togglePalette => ⟨!s.isOpen, [], 0⟩
  | .setQueryOp next => ⟨s.isOpen, next, 0⟩
  | .moveActiveOp delta =>
      if s.isOpen then
        if (hookResults commands lim s).length = 0 then s
        else ⟨s.isOpen, s.query,
          wrapIndex (s.activeIndex + delta) ((hookResults commands lim s).length : Int)⟩
      else s

/-!
Specification-side notions, written from the wording of the specification
rather than from the source, for comparison with the embedded code.
-/

/-- The list of Field Aggregator scores of the tokens, per the specification
wording for the Query Aggregator. -/
def tokenScores (tokens : List Str) (indexed : IndexedCommand)
    (weights : SearchWeights) : List ℚ :=
  tokens.map (fun t => scoreToken t indexed weights)

/-- The arithmetic mean over all tokens of the Field Aggregator scores, with
zero-scoring tokens counted in the denominator. -/
def tokenMean (tokens : List Str) (indexed : IndexedCommand)
    (weights : SearchWeights) : ℚ :=
  (tokenScores tokens indexed weights).sum / (tokens.length : ℚ)

/-- The fraction of tokens with a positive Field Aggregator score. -/
def tokenCoverage (tokens : List Str) (indexed : IndexedCommand)
    (weights : SearchWeights) : ℚ :=
  (((tokenScores tokens indexed weights).filter (fun s => decide (0 < s))).length : ℚ)
    / (tokens.length : ℚ)

/-!
Concrete sample data, written as code-point lists so that proofs can unfold
them by rewriting; the accompanying lemmas below check them against the
string literals they transcribe.
-/

/-- Code points of "git". -/
def sGit : Str := [103, 105, 116]

/-- Code points of "com". -/
def sCom : Str := [99, 111, 109]

/-- Code points of "git status". -/
def sGitStatus : Str := [103, 105, 116, 32, 115, 116, 97, 116, 117, 115]

/-- Code points of "x git". -/
def sXGit : Str := [120, 32, 103, 105, 116]

/-- Code points of "xgit". -/
def sXgit : Str := [120, 103, 105, 116]

/-- Code points of "gxit". -/
def sGxit : Str := [103, 120, 105, 116]

/-- Code points of "xcom". -/
def sXcom : Str := [120, 99, 111, 109]

/-- Code points of "a". -/
def sA : Str := [97]

/-- Code points of "b". -/
def sB : Str := [98]

/-- Code points of "c". -/
def sC : Str := [99]

/-- Sample record whose title is exactly "git status". -/
def gitStatusCmd : Command := ⟨sA, sGitStatus, []⟩

/-- Sample record whose title is exactly "git". -/
def cexCmdA : Command := ⟨sA, sGit, []⟩

/-- Sample record matching "git" only as a non-leading substring, in both the
title "x git" and the keyword "xgit". -/
def cexCmdB : Command := ⟨sB, sXGit, [sXgit]⟩

/-- Sample record matching "git" only as a scattered subsequence of "gxit". -/
def cexCmdC : Command := ⟨sC, sGxit, []⟩

/-! Basic facts about clamp01. -/

theorem clamp01_nonneg (v : ℚ) : 0 ≤ clamp01 v := by
  unfold clamp01; split_ifs <;> linarith

theorem clamp01_le_one (v : ℚ) : clamp01 v ≤ 1 := by
  unfold clamp01; split_ifs <;> linarith

theorem clamp01_of_bounds {v : ℚ} (h0 : 0 ≤ v) (h1 : v ≤ 1) : clamp01 v = v := by
  unfold clamp01; split_ifs <;> linarith

theorem clamp01_lt_clamp01 {u v : ℚ} (h0 : 0 ≤ u) (h1 : v ≤ 1) (h : u < v) :
    clamp01 u < clamp01 v := by
  unfold clamp01; split_ifs <;> linarith

/-! Sanity checks tying the sample code-point lists to their string literals. -/

theorem sGit_spec : sGit = str "git" := by decide

theorem sCom_spec : sCom = str "com" := by decide

theorem sGitStatus_spec : sGitStatus = str "git status" := by decide

theorem sXGit_spec : sXGit = str "x git" := by decide

theorem sXgit_spec : sXgit = str "xgit" := by decide

theorem sGxit_spec : sGxit = str "gxit" := by decide

/-! Properties of the comparators: totality and transitivity, which the
stable sort needs, and the characterization of strLe as the reflexive
closure of the standard lexicographic strict order. -/

theorem strLe_total : ∀ s t : Str, strLe s t = true ∨ strLe t s = true := by
  intro s
  induction s with
  | nil => intro t; exact Or.inl rfl
  | cons a s ih =>
      intro t
      cases t with
      | nil => exact Or.inr rfl
      | cons b t =>
          rcases Nat.lt_trichotomy a b with h | h | h
          · exact Or.inl (by simp [strLe, h])
          · rcases ih t with h2 | h2
            · exact Or.inl (by simp [strLe, h, h2])
            · exact Or.inr (by simp [strLe, h.symm, h2])
          · exact Or.inr (by simp [strLe, h])

theorem strLe_trans : ∀ s t u : Str, strLe s t = true → strLe t u = true →
    strLe s u = true := by
  intro s
  induction s with
  | nil => intro t u _ _; rfl
  | cons a s ih =>
      intro t u h1 h2
      cases t with
      | nil => simp [strLe] at h1
      | cons b t =>
          cases u with
          | nil => simp [strLe] at h2
          | cons c u =>
              simp only [strLe, Bool.or_eq_true, Bool.and_eq_true,
                decide_eq_true_eq] at h1 h2 ⊢
              rcases h1 with h1 | ⟨h1e, h1r⟩
              · rcases h2 with h2 | ⟨h2e, _⟩
                · exact Or.inl (h1.trans h2)
                · exact Or.inl (h2e ▸ h1)
              · rcases h2 with h2 | ⟨h2e, h2r⟩
                · exact Or.inl (h1e ▸ h2)
                · exact Or.inr ⟨h1e.trans h2e, ih t u h1r h2r⟩

theorem strLe_iff_lex (s t : Str) :
    strLe s t = true ↔ s = t ∨ List.Lex (· < ·) s t := by
  induction s generalizing t with
  | nil =>
      cases t with
      | nil => simp [strLe]
      | cons b t =>
          constructor
          · intro _; exact Or.inr List.Lex.nil
          · intro _; rfl
  | cons a s ih =>
      cases t with
      | nil =>
          constructor
          · intro h; simp [strLe] at h
          · rintro (h | h)
            · exact absurd h (List.cons_ne_nil a s)
            · cases h
      | cons b t =>
          simp only [strLe, Bool.or_eq_true, Bool.and_eq_true, decide_eq_true_eq, ih]
          constructor
          · rintro (h | ⟨he, h | h⟩)
            · exact Or.inr (List.Lex.rel h)
            · exact Or.inl (by rw [he, h])
            · exact Or.inr (he ▸ List.Lex.cons h)
          · rintro (h | h)
            · obtain ⟨he, ht⟩ := List.cons.injEq a s b t ▸ h
              exact Or.inr ⟨he, Or.inl ht⟩
            · cases h with
              | cons h => exact Or.inr ⟨rfl, Or.inr h⟩
              | rel h => exact Or.inl h

theorem idLe_total (a b : Command) : idLe a b || idLe b a := by
  rcases strLe_total a.id b.id with h | h <;> simp [idLe, h]

theorem idLe_trans (a b c : Command) (h1 : idLe a b) (h2 : idLe b c) : idLe a c :=
  strLe_trans a.id b.id c.id h1 h2

theorem resultLe_total (a b : SearchResult) : resultLe a b || resultLe b a := by
  unfold resultLe
  by_cases h : a.score = b.score
  · rw [if_pos h, if_pos h.symm]
    rcases strLe_total a.command.id b.command.id with hs | hs <;> simp [hs]
  · rw [if_neg h, if_neg (fun hh => h hh.symm)]
    rcases lt_or_gt_of_ne h with hlt | hlt <;> simp [hlt]

theorem resultLe_trans (a b c : SearchResult) (h1 : resultLe a b) (h2 : resultLe b c) :
    resultLe a c := by
  unfold resultLe at h1 h2 ⊢
  by_cases hab : a.score = b.score <;> by_cases hbc : b.score = c.score
  · rw [if_pos hab] at h1
    rw [if_pos hbc] at h2
    rw [if_pos (hab.trans hbc)]
    exact strLe_trans _ _ _ h1 h2
  · rw [if_pos hab] at h1
    rw [if_neg hbc] at h2
    have hcb : c.score < b.score := of_decide_eq_true h2
    have hac : a.score ≠ c.score := fun hh => hbc (by rw [← hab]; exact hh)
    rw [if_neg hac]
    exact decide_eq_true (by rw [hab]; exact hcb)
  · rw [if_neg hab] at h1
    rw [if_pos hbc] at h2
    have hba : b.score < a.score := of_decide_eq_true h1
    have hac : a.score ≠ c.score := fun hh => hab (by rw [hh, ← hbc])
    rw [if_neg hac]
    exact decide_eq_true (by rw [← hbc]; exact hba)
  · rw [if_neg hab] at h1
    rw [if_neg hbc] at h2
    have hba : b.score < a.score := of_decide_eq_true h1
    have hcb : c.score < b.score := of_decide_eq_true h2
    have hac : a.score ≠ c.score := fun hh => by rw [hh] at hba; linarith
    rw [if_neg hac]
    exact decide_eq_true (by linarith)

/-! Case analysis of the token scorer tiers. -/

theorem scoreTAC_token_empty (token candidate : Str) (h : token.isEmpty = true)
    (w : SearchWeights) :
    scoreTokenAgainstCandidate token candidate w = 0 := by
  unfold scoreTokenAgainstCandidate; rw [h]; simp

theorem scoreTAC_candidate_empty (token candidate : Str)
    (h : candidate.isEmpty = true) (w : SearchWeights) :
    scoreTokenAgainstCandidate token candidate w = 0 := by
  unfold scoreTokenAgainstCandidate; rw [h]; simp

theorem scoreTAC_prefixCase (token candidate : Str) (h1 : token.isEmpty = false)
    (hp : token.isPrefixOf candidate = true) (w : SearchWeights) :
    scoreTokenAgainstCandidate token candidate w = w.prefixScore := by
  have h2 : candidate.isEmpty = false := by
    cases token with
    | nil => simp at h1
    | cons a l =>
        cases candidate with
        | nil => simp [List.isPrefixOf] at hp
        | cons b m => rfl
  unfold scoreTokenAgainstCandidate
  rw [h1, h2, hp]; simp

theorem scoreTAC_substringCase (token candidate : Str) (h1 : token.isEmpty = false)
    (h2 : candidate.isEmpty = false) (hp : token.isPrefixOf candidate = false)
    (hi : jsIncludes candidate token = true) (w : SearchWeights) :
    scoreTokenAgainstCandidate token candidate w = w.substringScore := by
  unfold scoreTokenAgainstCandidate
  rw [h1, h2, hp, hi]; simp

theorem scoreTAC_subseqCase (token candidate : Str) (h1 : token.isEmpty = false)
    (h2 : candidate.isEmpty = false) (hp : token.isPrefixOf candidate = false)
    (hi : jsIncludes candidate token = false) (w : SearchWeights) :
    scoreTokenAgainstCandidate token candidate w =
      scoreSubsequence token candidate w.maxSubsequenceScore := by
  unfold scoreTokenAgainstCandidate
  rw [h1, h2, hp, hi]; simp

/-! Characterization of jsIncludes as the standard contiguous-occurrence
relation. -/

theorem jsIncludes_iff (candidate token : Str) :
    jsIncludes candidate token = true ↔ token <:+: candidate := by
  induction candidate with
  | nil =>
      rw [jsIncludes]
      simp [ List.isPrefixOf_iff_prefix]
  | cons c cs ih =>
      rw [jsIncludes]
      simp only [Bool.or_eq_true, ih, List.isPrefixOf_iff_prefix]
      exact (List.infix_cons_iff).symm

/-! The greedy scan of scoreSubsequence: it consumes the whole token exactly
when the token is an in-order subsequence of the candidate, and the first
match index it reports is the index of the first occurrence of the first
token code point. -/

theorem subseqScan_some : ∀ (cand tok : Str) (i j : Nat),
    (subseqScan tok cand i (some j)).2 = some j := by
  intro cand
  induction cand with
  | nil => intro tok i j; cases tok <;> rfl
  | cons c cs ih =>
      intro tok i j
      cases tok with
      | nil => rfl
      | cons t ts =>
          simp only [subseqScan]
          split
          · exact ih ts _ _
          · exact ih (t :: ts) _ _

theorem subseqScan_done_iff : ∀ (cand tok : Str) (i : Nat) (fmi : Option Nat),
    (subseqScan tok cand i fmi).1 = [] ↔ List.Sublist tok cand := by
  intro cand
  induction cand with
  | nil =>
      intro tok i fmi
      cases tok with
      | nil => simp [subseqScan]
      | cons t ts => simp [subseqScan]
  | cons c cs ih =>
      intro tok i fmi
      cases tok with
      | nil => simp [subseqScan, List.nil_sublist]
      | cons t ts =>
          simp only [subseqScan]
          by_cases h : c = t
          · rw [if_pos h, ih ts]
            subst h
            constructor
            · exact fun hs => List.Sublist.cons₂ c hs
            · exact fun hs => (List.cons_sublist_cons).mp hs
          · rw [if_neg h, ih (t :: ts)]
            constructor
            · exact fun hs => hs.cons c
            · intro hs
              cases hs with
              | cons _ hs => exact hs
              | cons₂ hs => exact absurd rfl h

theorem subseqScan_fmi : ∀ (cand : Str) (t0 : Nat) (ts : Str) (i : Nat),
    (subseqScan (t0 :: ts) cand i none).1 = [] →
    (subseqScan (t0 :: ts) cand i none).2 =
      some (i + cand.findIdx (fun c => c == t0)) := by
  intro cand
  induction cand with
  | nil => intro t0 ts i h; simp [subseqScan] at h
  | cons c cs ih =>
      intro t0 ts i h
      by_cases hc : c = t0
      · simp only [subseqScan]
        rw [if_pos hc, subseqScan_some]
        have hb : (c == t0) = true := beq_iff_eq.mpr hc
        simp [List.findIdx_cons, hb]
      · simp only [subseqScan] at h ⊢
        rw [if_neg hc] at h ⊢
        rw [ih t0 ts (i + 1) h]
        have hb : (c == t0) = false := beq_eq_false_iff_ne.mpr hc
        simp [List.findIdx_cons, hb]
        omega

theorem scoreSubsequence_eq (t0 : Nat) (ts : Str) (candidate : Str) (maxScore : ℚ) :
    scoreSubsequence (t0 :: ts) candidate maxScore =
      if List.Sublist (t0 :: ts) candidate then
        clamp01 (1 - ((candidate.findIdx (fun c => c == t0) : ℚ)) / (candidate.length : ℚ))
          * maxScore
      else 0 := by
  unfold scoreSubsequence
  have hne : (t0 :: ts).isEmpty = false := rfl
  rw [hne, if_neg Bool.false_ne_true]
  by_cases hlen : candidate.length < (t0 :: ts).length
  · have hnot : ¬ List.Sublist (t0 :: ts) candidate := fun hs => by
      have := hs.length_le; omega
    rw [if_pos hlen, if_neg hnot]
  · rw [if_neg hlen]
    by_cases hdone : (subseqScan (t0 :: ts) candidate 0 none).1 = []
    · have hsub : List.Sublist (t0 :: ts) candidate :=
        (subseqScan_done_iff candidate (t0 :: ts) 0 none).mp hdone
      have hf := subseqScan_fmi candidate t0 ts 0 hdone
      rw [hdone, hf, if_pos hsub]
      simp
    · have hsub : ¬ List.Sublist (t0 :: ts) candidate := fun hs =>
        hdone ((subseqScan_done_iff candidate (t0 :: ts) 0 none).mpr hs)
      have hie : (subseqScan (t0 :: ts) candidate 0 none).1.isEmpty = false := by
        cases hh : (subseqScan (t0 :: ts) candidate 0 none).1 with
        | nil => exact absurd hh hdone
        | cons a l => rfl
      rw [if_neg hsub, hie]
      simp

/-! Bounds on the score combinators. -/

theorem scoreSubsequence_nonneg (token candidate : Str) {maxScore : ℚ}
    (h : 0 ≤ maxScore) : 0 ≤ scoreSubsequence token candidate maxScore := by
  unfold scoreSubsequence
  split_ifs with h1 h2 h3
  · exact le_refl 0
  · exact le_refl 0
  · exact le_refl 0
  · cases h4 : (subseqScan token candidate 0 none).2 with
    | none => exact le_refl 0
    | some k => exact mul_nonneg (clamp01_nonneg _) h

theorem scoreSubsequence_le_max (token candidate : Str) {maxScore : ℚ}
    (h : 0 ≤ maxScore) : scoreSubsequence token candidate maxScore ≤ maxScore := by
  unfold scoreSubsequence
  split_ifs with h1 h2 h3
  · exact h
  · exact h
  · exact h
  · cases h4 : (subseqScan token candidate 0 none).2 with
    | none => exact h
    | some k => exact mul_le_of_le_one_left h (clamp01_le_one _)

theorem scoreToken_nonneg (token : Str) (indexed : IndexedCommand) (w : SearchWeights) :
    0 ≤ scoreToken token indexed w := clamp01_nonneg _

theorem scoreToken_le_one (token : Str) (indexed : IndexedCommand) (w : SearchWeights) :
    scoreToken token indexed w ≤ 1 := clamp01_le_one _

theorem scoreQueryTokens_nonneg (tokens : List Str) (indexed : IndexedCommand)
    (w : SearchWeights) : 0 ≤ scoreQueryTokens tokens indexed w := by
  unfold scoreQueryTokens
  split
  · exact le_refl 0
  · exact clamp01_nonneg _

theorem scoreQueryTokens_le_one (tokens : List Str) (indexed : IndexedCommand)
    (w : SearchWeights) : scoreQueryTokens tokens indexed w ≤ 1 := by
  unfold scoreQueryTokens
  split
  · exact zero_le_one
  · exact clamp01_le_one _

/-! The accumulating loop of scoreQueryTokens, characterized by the matched
count and the score sum. -/

theorem scoreQueryTokens_foldl (indexed : IndexedCommand) (w : SearchWeights) :
    ∀ (ts : List Str) (m : Nat) (q : ℚ),
    ts.foldl (fun (acc : Nat × ℚ) token =>
        let s := scoreToken token indexed w
        (if 0 < s then acc.1 + 1 else acc.1, acc.2 + s)) (m, q)
    = (m + ((tokenScores ts indexed w).filter (fun s => decide (0 < s))).length,
       q + (tokenScores ts indexed w).sum) := by
  intro ts
  induction ts with
  | nil => intro m q; simp [tokenScores]
  | cons t ts ih =>
      intro m q
      rw [List.foldl_cons, ih]
      by_cases h : 0 < scoreToken t indexed w
      · simp [tokenScores, List.filter_cons, h, Prod.ext_iff]
        exact ⟨by omega, by ring⟩
      · simp [tokenScores, List.filter_cons, h, Prod.ext_iff]
        ring

/-! The closed form of the query aggregation. -/

theorem scoreQueryTokens_eq_mean_coverage (tokens : List Str) (indexed : IndexedCommand)
    (w : SearchWeights) (h : tokens ≠ []) :
    scoreQueryTokens tokens indexed w =
      clamp01 (tokenMean tokens indexed w * w.relevanceWeight
        + tokenCoverage tokens indexed w * w.coverageWeight) := by
  unfold scoreQueryTokens
  rw [if_neg (by simp [List.isEmpty_iff, h])]
  rw [scoreQueryTokens_foldl]
  unfold tokenMean tokenCoverage
  dsimp only
  norm_num

theorem scoreQueryTokens_single (t : Str) (indexed : IndexedCommand) (w : SearchWeights) :
    scoreQueryTokens [t] indexed w =
      clamp01 (scoreToken t indexed w * w.relevanceWeight
        + (if 0 < scoreToken t indexed w then (1 : ℚ) else 0) * w.coverageWeight) := by
  rw [scoreQueryTokens_eq_mean_coverage _ _ _ (by simp)]
  unfold tokenMean tokenCoverage tokenScores
  by_cases h : 0 < scoreToken t indexed w <;> simp [List.filter_cons, h]

/-! A non-empty normalized query yields at least one token: normalization
leaves no leading whitespace, so the first split chunk survives. -/

theorem dropWhile_head_not (p : Nat → Bool) : ∀ (l : Str) {c : Nat} {t : Str},
    l.dropWhile p = c :: t → p c = false := by
  intro l
  induction l with
  | nil => intro c t h; simp at h
  | cons a l ih =>
      intro c t h
      rw [List.dropWhile_cons] at h
      by_cases ha : p a = true
      · exact ih (by simpa [ha] using h)
      · have ha' : p a = false := by simpa using ha
        rw [ha'] at h
        simp at h
        obtain ⟨hc, _⟩ := h
        rw [← hc]; exact ha'

theorem trimStr_head_not {s : Str} {c : Nat} {t : Str} (h : trimStr s = c :: t) :
    isWhitespaceCode c = false := by
  unfold trimStr at h
  have hsuf : (c :: t).reverse <:+ (s.dropWhile isWhitespaceCode).reverse := by
    rw [← h, List.reverse_reverse]
    exact List.dropWhile_suffix _
  have hpre : (c :: t) <+: s.dropWhile isWhitespaceCode := List.reverse_suffix.mp hsuf
  obtain ⟨rest, hrest⟩ := hpre
  rw [List.cons_append] at hrest
  exact dropWhile_head_not isWhitespaceCode s hrest.symm

theorem trimStr_cons_ne_nil {c : Nat} (hc : isWhitespaceCode c = false) (x : Str) :
    trimStr (c :: x) ≠ [] := by
  unfold trimStr
  rw [List.dropWhile_cons, hc]
  intro hcon
  simp only [Bool.false_eq_true, if_false, List.reverse_eq_nil_iff] at hcon
  have := List.dropWhile_eq_nil_iff.mp hcon c (by simp)
  rw [hc] at this
  exact Bool.false_ne_true this

theorem collapseWSAux_cons_not {c : Nat} (hc : isWhitespaceCode c = false)
    (t : Str) (b : Bool) : collapseWSAux b (c :: t) = c :: collapseWSAux false t := by
  simp [collapseWSAux, hc]

theorem normalize_head_not {q : Str} (h : normalize q ≠ []) :
    ∃ c t, normalize q = c :: t ∧ isWhitespaceCode c = false := by
  unfold normalize collapseWS at h ⊢
  cases hm : trimStr (toLowerStr q) with
  | nil => rw [hm] at h; exact absurd rfl h
  | cons c t =>
      have hc : isWhitespaceCode c = false := trimStr_head_not hm
      exact ⟨c, collapseWSAux false t, collapseWSAux_cons_not hc t false, hc⟩

theorem tokenize_cons_ne_nil {c : Nat} (hc : isWhitespaceCode c = false) (t : Str) :
    tokenize (c :: t) ≠ [] := by
  unfold tokenize
  rw [List.splitOnP_cons, hc]
  simp only [Bool.false_eq_true, if_false]
  cases hsp : (t.splitOnP isWhitespaceCode) with
  | nil => exact absurd hsp (List.splitOnP_ne_nil _ t)
  | cons x xs =>
      rw [List.modifyHead_cons, List.map_cons, List.filter_cons]
      have hne : trimStr (c :: x) ≠ [] := trimStr_cons_ne_nil hc x
      have : (!(trimStr (c :: x)).isEmpty) = true := by
        cases hh : trimStr (c :: x) with
        | nil => exact absurd hh hne
        | cons a l => rfl
      rw [this]
      simp

theorem tokenize_normalize_ne_nil {q : Str} (h : normalize q ≠ []) :
    tokenize (normalize q) ≠ [] := by
  obtain ⟨c, t, heq, hc⟩ := normalize_head_not h
  rw [heq]
  exact tokenize_cons_ne_nil hc t

/-! The two paths of searchCommands in closed form. -/

theorem searchCommands_empty_eq (query : Str) (commands : List Command) (limit : Option Nat)
    (config : Option SearchConfig) (h : normalize query = []) :
    searchCommands query commands limit config =
      (takeOpt limit (commands.mergeSort idLe)).map (fun command => ⟨command, 0⟩) := by
  simp only [searchCommands, h]
  simp

theorem searchCommands_nonempty_eq (query : Str) (commands : List Command)
    (limit : Option Nat) (config : Option SearchConfig) (h : normalize query ≠ []) :
    searchCommands query commands limit config =
      takeOpt limit (((((config.bind SearchConfig.indexedCommands).getD
          (buildCommandIndex commands)).map (fun indexed =>
            (⟨indexed.command, scoreQueryTokens (tokenize (normalize query)) indexed
              (mergeWeights DEFAULT_WEIGHTS
                ((config.bind SearchConfig.weights).getD noOverrides))⟩ : SearchResult))).filter
          (fun r => decide (0 < r.score))).mergeSort resultLe) := by
  simp only [searchCommands]
  rw [if_neg (by simp [List.isEmpty_iff, h])]
  rw [if_neg (by simp [List.isEmpty_iff, tokenize_normalize_ne_nil h])]

/-! Bounds for the index wrap of the hook. -/

theorem neg_lt_tmod (i : Int) {n : Int} (h : 0 < n) : -n < i.tmod n := by
  match i with
  | Int.ofNat m =>
      have h0 : (0 : Int) ≤ Int.ofNat m := Int.ofNat_nonneg m
      have := Int.tmod_nonneg n h0
      linarith
  | Int.negSucc m =>
      match n, h with
      | Int.ofNat (k + 1), _ =>
          have he : (Int.negSucc m).tmod (Int.ofNat (k + 1))
              = -(((m + 1) % (k + 1) : Nat) : Int) := rfl
          rw [he]
          have hm : (m + 1) % (k + 1) < k + 1 := Nat.mod_lt _ (Nat.succ_pos k)
          have hofnat : -(Int.ofNat (k + 1)) = -(((k + 1 : Nat)) : Int) := rfl
          rw [hofnat]
          exact neg_lt_neg (by exact_mod_cast hm)

theorem wrapIndex_bounds (i : Int) {n : Int} (h : 0 < n) :
    0 ≤ wrapIndex i n ∧ wrapIndex i n < n := by
  unfold wrapIndex
  rw [if_neg (not_le.mpr h)]
  have h1 : i.tmod n < n := Int.tmod_lt_of_pos i h
  have h2 : -n < i.tmod n := neg_lt_tmod i h
  have h3 : (0 : Int) ≤ i.tmod n + n := by linarith
  rw [Int.tmod_eq_emod h3 (le_of_lt h)]
  exact ⟨Int.emod_nonneg _ (ne_of_gt h), Int.emod_lt_of_pos _ h⟩

/-! Store accesses commute with the allocate-and-sort of the empty path. -/

theorem storeGet_alloc_set (st : Store) (a sorted : List Command) {r' : Nat}
    (h : r' < st.length) :
    storeGet ((st ++ [a]).set st.length sorted) r' = storeGet st r' := by
  unfold storeGet
  rw [List.getD_eq_getElem?_getD, List.getD_eq_getElem?_getD]
  rw [List.getElem?_set_ne (by omega)]
  rw [List.getElem?_append]
  rw [if_pos h]

/-! Small bridging helpers between the Boolean string tests of the code and
the propositional occurrence relations. -/

theorem isEmpty_false_of_ne_nil {l : Str} (h : l ≠ []) : l.isEmpty = false := by
  cases l with
  | nil => exact absurd rfl h
  | cons a t => rfl

theorem infix_isEmpty_false {token cand : Str} (htok : token ≠ [])
    (h : token <:+: cand) : cand.isEmpty = false := by
  cases cand with
  | nil =>
      obtain ⟨s, t, hst⟩ := h
      simp at hst
      exact absurd hst.2.1 htok
  | cons a t => rfl

theorem isPrefixOf_false_of_not {token cand : Str} (h : ¬ token <+: cand) :
    token.isPrefixOf cand = false := by
  rw [Bool.eq_false_iff]
  exact fun hb => h (( List.isPrefixOf_iff_prefix).mp hb)

theorem jsIncludes_false_of_not {token cand : Str} (h : ¬ token <:+: cand) :
    jsIncludes cand token = false := by
  rw [Bool.eq_false_iff]
  exact fun hb => h ((jsIncludes_iff cand token).mp hb)

theorem scoreSubsequence_nil_cand {token : Str} (htok : token ≠ []) (m : ℚ) :
    scoreSubsequence token [] m = 0 := by
  unfold scoreSubsequence
  rw [isEmpty_false_of_ne_nil htok]
  rw [if_neg Bool.false_ne_true]
  rw [if_pos (by simpa [List.length_pos] using htok)]

/-- Claim C1, counterexample: for the two-token query "git com" against a
record titled "git status" (where only "git" matches), the query-level score
produced by scoreQueryTokens is 149/400 = 0.3725 while the arithmetic mean of
the two per-token scores is 7/20 = 0.35; the score is not the mean, because
the code adds a separate coverage term. -/
theorem scoreQuery_mean_counterexample :
    (buildCommandIndex [gitStatusCmd]).map (fun ic =>
      scoreQueryTokens [sGit, sCom] ic DEFAULT_WEIGHTS) = [149/400]
    ∧ (buildCommandIndex [gitStatusCmd]).map (fun ic =>
      (scoreToken sGit ic DEFAULT_WEIGHTS + scoreToken sCom ic DEFAULT_WEIGHTS) / 2) = [7/20]
    ∧ ((149 / 400 : ℚ) ≠ 7 / 20) := by
  have hidx : buildCommandIndex [gitStatusCmd] = [⟨gitStatusCmd, sGitStatus, []⟩] := by decide
  rw [hidx]
  refine ⟨?_, ?_, by norm_num⟩
  · norm_num [scoreQueryTokens, List.foldl, scoreToken, scoreTokenAgainstCandidate, sGit, sCom,
      sGitStatus, DEFAULT_WEIGHTS, clamp01, List.isPrefixOf, jsIncludes, scoreSubsequence,
      subseqScan, List.cons_ne_nil]
  · norm_num [scoreToken, scoreTokenAgainstCandidate, sGit, sCom, sGitStatus, DEFAULT_WEIGHTS,
      clamp01, List.isPrefixOf, jsIncludes, scoreSubsequence, subseqScan, List.cons_ne_nil]

/-- Claim C1, amended: for every non-empty token list, indexed record and
weights, the query-level score equals the clamped combination of the
arithmetic mean of the per-token Field Aggregator scores (zero-scoring
tokens counted in the denominator), scaled by relevanceWeight, plus the
matched-token coverage fraction scaled by coverageWeight; under the default
weights these factors are 0.85 and 0.15. -/
theorem scoreQuery_formula_amended (tokens : List Str) (indexed : IndexedCommand)
    (w : SearchWeights) (h : tokens ≠ []) :
    scoreQueryTokens tokens indexed w =
      clamp01 (tokenMean tokens indexed w * w.relevanceWeight
        + tokenCoverage tokens indexed w * w.coverageWeight) :=
  scoreQueryTokens_eq_mean_coverage tokens indexed w h

/-- Witness for the amended claim C1 at the concrete two-token query of the
counterexample. -/
theorem scoreQuery_formula_amended_witness :
    scoreQueryTokens [sGit, sCom] ⟨gitStatusCmd, sGitStatus, []⟩ DEFAULT_WEIGHTS =
      clamp01 (tokenMean [sGit, sCom] ⟨gitStatusCmd, sGitStatus, []⟩ DEFAULT_WEIGHTS
          * DEFAULT_WEIGHTS.relevanceWeight
        + tokenCoverage [sGit, sCom] ⟨gitStatusCmd, sGitStatus, []⟩ DEFAULT_WEIGHTS
          * DEFAULT_WEIGHTS.coverageWeight) :=
  scoreQuery_formula_amended [sGit, sCom] ⟨gitStatusCmd, sGitStatus, []⟩ DEFAULT_WEIGHTS
    (by decide)

/-- Claim C2: the per-field token score follows the fixed priority model.  An
empty token scores 0; a token longer than the field scores 0; a token the
field starts with scores prefixScore; otherwise a token occurring
contiguously scores substringScore; otherwise the score is the clamped
position fraction of the first match index scaled by maxSubsequenceScore
when the token occurs as an in-order subsequence, and 0 when it does not. -/
theorem tokenScorer_priority_model (token candidate : Str) (w : SearchWeights) :
    (token = [] → scoreTokenAgainstCandidate token candidate w = 0)
    ∧ (candidate.length < token.length → scoreTokenAgainstCandidate token candidate w = 0)
    ∧ (token ≠ [] → token <+: candidate →
        scoreTokenAgainstCandidate token candidate w = w.prefixScore)
    ∧ (token ≠ [] → ¬ token <+: candidate → token <:+: candidate →
        scoreTokenAgainstCandidate token candidate w = w.substringScore)
    ∧ (∀ t0 ts, token = t0 :: ts → ¬ token <+: candidate → ¬ token <:+: candidate →
        scoreTokenAgainstCandidate token candidate w =
          if List.Sublist token candidate then
            clamp01 (1 - ((candidate.findIdx (fun c => c == t0) : ℚ)) / (candidate.length : ℚ))
              * w.maxSubsequenceScore
          else 0) := by
  refine ⟨?_, ?_, ?_, ?_, ?_⟩
  · intro htok
    exact scoreTAC_token_empty token candidate (by rw [htok]; rfl) w
  · intro hlen
    cases htok : token with
    | nil => rw [htok] at hlen; simp at hlen
    | cons t0 ts =>
        rw [htok] at hlen
        cases hcand : candidate with
        | nil => exact scoreTAC_candidate_empty (t0 :: ts) [] rfl w
        | cons c0 cs =>
            rw [hcand] at hlen
            have hp : (t0 :: ts).isPrefixOf (c0 :: cs) = false :=
              isPrefixOf_false_of_not (fun hb => by have := hb.length_le; omega)
            have hi : jsIncludes (c0 :: cs) (t0 :: ts) = false :=
              jsIncludes_false_of_not (fun hb => by have := hb.length_le; omega)
            rw [scoreTAC_subseqCase (t0 :: ts) (c0 :: cs) rfl rfl hp hi]
            unfold scoreSubsequence
            rw [if_neg (by simp), if_pos hlen]
  · intro htok hpre
    exact scoreTAC_prefixCase token candidate (isEmpty_false_of_ne_nil htok)
      (( List.isPrefixOf_iff_prefix).mpr hpre) w
  · intro htok hnp hinf
    exact scoreTAC_substringCase token candidate (isEmpty_false_of_ne_nil htok)
      (infix_isEmpty_false htok hinf) (isPrefixOf_false_of_not hnp)
      ((jsIncludes_iff candidate token).mpr hinf) w
  · intro t0 ts htok hnp hni
    subst htok
    cases hcand : candidate with
    | nil =>
        rw [scoreTAC_candidate_empty (t0 :: ts) [] rfl w]
        rw [if_neg (by simp)]
    | cons c0 cs =>
        rw [hcand] at hnp hni
        rw [scoreTAC_subseqCase (t0 :: ts) (c0 :: cs) rfl rfl (isPrefixOf_false_of_not hnp)
          (jsIncludes_false_of_not hni) w]
        exact scoreSubsequence_eq t0 ts (c0 :: cs) w.maxSubsequenceScore

/-- Witness for claim C2 at the concrete substring case: the token "com"
against the field "xcom". -/
theorem tokenScorer_priority_model_witness :
    scoreTokenAgainstCandidate sCom sXcom DEFAULT_WEIGHTS = DEFAULT_WEIGHTS.substringScore :=
  (tokenScorer_priority_model sCom sXcom DEFAULT_WEIGHTS).2.2.2.1 (by decide) (by decide)
    (by decide)

/-- Claim C6, counterexample: under default weights, for the single token
"git", the record A with title exactly "git" (a prefix match, keywords not
matching) scores 149/200 = 0.745, while the record B in which "git" occurs
only as a non-leading substring — in the title "x git" and the keyword
"xgit" — scores 83/100 = 0.83; the prefix record does not outrank the
substring record, because B collects the substring score on both fields. -/
theorem priority_outranking_counterexample :
    (buildCommandIndex [cexCmdA, cexCmdB]).map
      (fun ic => scoreQueryTokens [sGit] ic DEFAULT_WEIGHTS) = [149/200, 83/100]
    ∧ ((149 / 200 : ℚ) < 83 / 100) := by
  have hidx : buildCommandIndex [cexCmdA, cexCmdB] =
      [⟨cexCmdA, sGit, []⟩, ⟨cexCmdB, sXGit, sXgit⟩] := by decide
  rw [hidx]
  constructor
  · norm_num [scoreQueryTokens, List.foldl, scoreToken, scoreTokenAgainstCandidate, sGit,
      sXGit, sXgit, DEFAULT_WEIGHTS, clamp01, List.isPrefixOf, jsIncludes, scoreSubsequence,
      subseqScan, List.cons_ne_nil]
  · norm_num

/-- Claim C6, amended: under default weights, for a single-token query whose
token does not match either record on the keywords field, a record whose
title starts with the token strictly outranks one where the token occurs in
the title only as a non-leading substring, which strictly outranks one whose
title matches the token only as an in-order subsequence. -/
theorem priority_outranking_amended (token : Str) (A B C : IndexedCommand)
    (htok : token ≠ [])
    (hA : token <+: A.normalizedTitle)
    (hAk : scoreTokenAgainstCandidate token A.normalizedKeywords DEFAULT_WEIGHTS = 0)
    (hB1 : ¬ token <+: B.normalizedTitle)
    (hB2 : token <:+: B.normalizedTitle)
    (hBk : scoreTokenAgainstCandidate token B.normalizedKeywords DEFAULT_WEIGHTS = 0)
    (hC1 : ¬ token <+: C.normalizedTitle)
    (hC2 : ¬ token <:+: C.normalizedTitle)
    (hC3 : 0 < scoreSubsequence token C.normalizedTitle DEFAULT_WEIGHTS.maxSubsequenceScore)
    (hCk : scoreTokenAgainstCandidate token C.normalizedKeywords DEFAULT_WEIGHTS = 0) :
    scoreQueryTokens [token] C DEFAULT_WEIGHTS < scoreQueryTokens [token] B DEFAULT_WEIGHTS
    ∧ scoreQueryTokens [token] B DEFAULT_WEIGHTS < scoreQueryTokens [token] A DEFAULT_WEIGHTS := by
  have hne : token.isEmpty = false := isEmpty_false_of_ne_nil htok
  have hsA : scoreToken token A DEFAULT_WEIGHTS = 7 / 10 := by
    unfold scoreToken
    rw [scoreTAC_prefixCase token A.normalizedTitle hne
      (( List.isPrefixOf_iff_prefix).mpr hA) DEFAULT_WEIGHTS, hAk]
    norm_num [DEFAULT_WEIGHTS, clamp01]
  have hsB : scoreToken token B DEFAULT_WEIGHTS = 14 / 25 := by
    unfold scoreToken
    rw [scoreTAC_substringCase token B.normalizedTitle hne (infix_isEmpty_false htok hB2)
      (isPrefixOf_false_of_not hB1) ((jsIncludes_iff B.normalizedTitle token).mpr hB2)
      DEFAULT_WEIGHTS, hBk]
    norm_num [DEFAULT_WEIGHTS, clamp01]
  have hCt : C.normalizedTitle.isEmpty = false := by
    cases hc : C.normalizedTitle with
    | nil =>
        rw [hc, scoreSubsequence_nil_cand htok] at hC3
        exact absurd hC3 (lt_irrefl 0)
    | cons a l => rfl
  have hsC : scoreToken token C DEFAULT_WEIGHTS =
      clamp01 (scoreSubsequence token C.normalizedTitle DEFAULT_WEIGHTS.maxSubsequenceScore
        * DEFAULT_WEIGHTS.titleWeight + 0 * DEFAULT_WEIGHTS.keywordWeight) := by
    unfold scoreToken
    rw [scoreTAC_subseqCase token C.normalizedTitle hne hCt (isPrefixOf_false_of_not hC1)
      (jsIncludes_false_of_not hC2) DEFAULT_WEIGHTS, hCk]
  set s := scoreSubsequence token C.normalizedTitle DEFAULT_WEIGHTS.maxSubsequenceScore with hs
  have hs1 : 0 ≤ s := le_of_lt hC3
  have hs2 : s ≤ 6 / 10 := by
    have hle := scoreSubsequence_le_max token C.normalizedTitle
      (show (0 : ℚ) ≤ DEFAULT_WEIGHTS.maxSubsequenceScore by norm_num [DEFAULT_WEIGHTS])
    rw [← hs] at hle
    calc s ≤ DEFAULT_WEIGHTS.maxSubsequenceScore := hle
    _ = 6 / 10 := by norm_num [DEFAULT_WEIGHTS]
  have hsC2 : scoreToken token C DEFAULT_WEIGHTS = s * (7 / 10) := by
    rw [hsC]
    have harg : s * DEFAULT_WEIGHTS.titleWeight + 0 * DEFAULT_WEIGHTS.keywordWeight
        = s * (7 / 10) := by norm_num [DEFAULT_WEIGHTS]
    rw [harg]
    exact clamp01_of_bounds (mul_nonneg hs1 (by norm_num)) (by linarith)
  have hfA : scoreQueryTokens [token] A DEFAULT_WEIGHTS = 149 / 200 := by
    rw [scoreQueryTokens_single, hsA, if_pos (by norm_num : (0 : ℚ) < 7 / 10)]
    norm_num [DEFAULT_WEIGHTS, clamp01]
  have hfB : scoreQueryTokens [token] B DEFAULT_WEIGHTS = 313 / 500 := by
    rw [scoreQueryTokens_single, hsB, if_pos (by norm_num : (0 : ℚ) < 14 / 25)]
    norm_num [DEFAULT_WEIGHTS, clamp01]
  have hfC : scoreQueryTokens [token] C DEFAULT_WEIGHTS
      = s * (7 / 10) * (85 / 100) + 15 / 100 := by
    rw [scoreQueryTokens_single, hsC2, if_pos (mul_pos hC3 (by norm_num))]
    have hwv : DEFAULT_WEIGHTS.relevanceWeight = 85 / 100 ∧
        DEFAULT_WEIGHTS.coverageWeight = 15 / 100 := by norm_num [DEFAULT_WEIGHTS]
    rw [hwv.1, hwv.2, one_mul]
    exact clamp01_of_bounds (by nlinarith) (by nlinarith)
  refine ⟨?_, ?_⟩
  · rw [hfC, hfB]; nlinarith
  · rw [hfB, hfA]; norm_num

/-- Witness for the amended claim C6 at a concrete prefix record ("git"),
substring record ("x git") and subsequence record ("gxit"), all with
non-matching keywords. -/
theorem priority_outranking_amended_witness :
    scoreQueryTokens [sGit] (⟨cexCmdC, sGxit, []⟩ : IndexedCommand) DEFAULT_WEIGHTS
      < scoreQueryTokens [sGit] (⟨cexCmdB, sXGit, []⟩ : IndexedCommand) DEFAULT_WEIGHTS
    ∧ scoreQueryTokens [sGit] (⟨cexCmdB, sXGit, []⟩ : IndexedCommand) DEFAULT_WEIGHTS
      < scoreQueryTokens [sGit] (⟨cexCmdA, sGit, []⟩ : IndexedCommand) DEFAULT_WEIGHTS :=
  priority_outranking_amended sGit ⟨cexCmdA, sGit, []⟩ ⟨cexCmdB, sXGit, []⟩ ⟨cexCmdC, sGxit, []⟩
    (by decide) (by decide) (scoreTAC_candidate_empty sGit [] rfl DEFAULT_WEIGHTS)
    (by decide) (by decide) (scoreTAC_candidate_empty sGit [] rfl DEFAULT_WEIGHTS)
    (by decide) (by decide)
    (by norm_num [scoreSubsequence, subseqScan, sGit, sGxit, DEFAULT_WEIGHTS, clamp01,
      List.cons_ne_nil])
    (scoreTAC_candidate_empty sGit [] rfl DEFAULT_WEIGHTS)

/-! Helpers about the optional truncation and about the ranked comparator
read back as a proposition. -/

theorem takeOpt_subset {α : Type} (limit : Option Nat) (l : List α) :
    ∀ a ∈ takeOpt limit l, a ∈ l := by
  cases limit with
  | none => intro a ha; exact ha
  | some n => intro a ha; exact List.take_subset n l ha

theorem takeOpt_sublist {α : Type} (limit : Option Nat) (l : List α) :
    (takeOpt limit l).Sublist l := by
  cases limit with
  | none => exact List.Sublist.refl l
  | some n => exact List.take_sublist n l

theorem resultLe_true_iff (a b : SearchResult) :
    resultLe a b = true ↔
      b.score < a.score ∨ (a.score = b.score ∧ strLe a.command.id b.command.id = true) := by
  unfold resultLe
  by_cases h : a.score = b.score
  · rw [if_pos h]
    constructor
    · exact fun hs => Or.inr ⟨h, hs⟩
    · rintro (hlt | ⟨_, hs⟩)
      · rw [h] at hlt; exact absurd hlt (lt_irrefl _)
      · exact hs
  · rw [if_neg h]
    constructor
    · intro hd; exact Or.inl (of_decide_eq_true hd)
    · rintro (hlt | ⟨he, _⟩)
      · exact decide_eq_true hlt
      · exact absurd he h

/-- Claim C3: for a query with non-empty normalization, the search result
consists exactly of the records scoring positive against the query tokens
(a permutation of the positive-score filter of the scored index when no
limit is given), it is ordered by score descending with ties broken by
ascending id, and a given limit truncates the unlimited result. -/
theorem search_nonempty_query_contract (query : Str) (commands : List Command)
    (limit : Option Nat) (config : Option SearchConfig) (h : normalize query ≠ []) :
    (∀ r ∈ searchCommands query commands limit config, 0 < r.score)
    ∧ (searchCommands query commands none config).Perm
        ((((config.bind SearchConfig.indexedCommands).getD (buildCommandIndex commands)).map
          (fun indexed => (⟨indexed.command, scoreQueryTokens (tokenize (normalize query))
            indexed (mergeWeights DEFAULT_WEIGHTS
              ((config.bind SearchConfig.weights).getD noOverrides))⟩ : SearchResult))).filter
          (fun r => decide (0 < r.score)))
    ∧ (searchCommands query commands limit config).Pairwise
        (fun a b => b.score < a.score
          ∨ (a.score = b.score ∧ strLe a.command.id b.command.id = true))
    ∧ (∀ n, searchCommands query commands (some n) config
        = (searchCommands query commands none config).take n) := by
  refine ⟨?_, ?_, ?_, ?_⟩
  · intro r hr
    rw [searchCommands_nonempty_eq query commands limit config h] at hr
    have hr2 := takeOpt_subset limit _ r hr
    rw [List.mem_mergeSort, List.mem_filter] at hr2
    exact of_decide_eq_true hr2.2
  · rw [searchCommands_nonempty_eq query commands none config h]
    exact List.mergeSort_perm _ _
  · rw [searchCommands_nonempty_eq query commands limit config h]
    have hsorted := List.sorted_mergeSort resultLe_trans resultLe_total
      ((((config.bind SearchConfig.indexedCommands).getD (buildCommandIndex commands)).map
        (fun indexed => (⟨indexed.command, scoreQueryTokens (tokenize (normalize query))
          indexed (mergeWeights DEFAULT_WEIGHTS
            ((config.bind SearchConfig.weights).getD noOverrides))⟩ : SearchResult))).filter
        (fun r => decide (0 < r.score)))
    have hpair := List.Pairwise.sublist (takeOpt_sublist limit _) hsorted
    exact hpair.imp (fun hab => (resultLe_true_iff _ _).mp hab)
  · intro n
    rw [searchCommands_nonempty_eq query commands (some n) config h,
        searchCommands_nonempty_eq query commands none config h]
    rfl

/-- Claim C4: for a query normalizing to the empty string, search returns all
records (limit permitting) with score exactly 0, sorted purely by ascending
id, and a given limit truncates the unlimited result. -/
theorem search_empty_query_contract (query : Str) (commands : List Command)
    (limit : Option Nat) (config : Option SearchConfig) (h : normalize query = []) :
    (searchCommands query commands limit config).length
      = (match limit with | none => commands.length | some n => min n commands.length)
    ∧ ((searchCommands query commands none config).map SearchResult.command).Perm commands
    ∧ (searchCommands query commands limit config).Pairwise
        (fun a b => strLe a.command.id b.command.id = true)
    ∧ (∀ r ∈ searchCommands query commands limit config, r.score = 0)
    ∧ (∀ n, searchCommands query commands (some n) config
        = (searchCommands query commands none config).take n) := by
  refine ⟨?_, ?_, ?_, ?_, ?_⟩
  · rw [searchCommands_empty_eq query commands limit config h, List.length_map]
    cases limit with
    | none => simp [takeOpt]
    | some n => simp [takeOpt]
  · rw [searchCommands_empty_eq query commands none config h]
    have ht : (takeOpt none (commands.mergeSort idLe)) = commands.mergeSort idLe := rfl
    rw [ht, List.map_map]
    have hc : (SearchResult.command ∘ fun command => (⟨command, 0⟩ : SearchResult)) = id := rfl
    rw [hc, List.map_id]
    exact List.mergeSort_perm commands idLe
  · rw [searchCommands_empty_eq query commands limit config h, List.pairwise_map]
    have hsorted := List.sorted_mergeSort idLe_trans idLe_total commands
    exact List.Pairwise.sublist (takeOpt_sublist limit _) hsorted
  · rw [searchCommands_empty_eq query commands limit config h]
    intro r hr
    rw [List.mem_map] at hr
    obtain ⟨c, _, hc⟩ := hr
    rw [← hc]
  · intro n
    rw [searchCommands_empty_eq query commands (some n) config h,
        searchCommands_empty_eq query commands none config h]
    exact List.map_take _ _ _

/-- Witness for claim C3 at the concrete query "git" over one record. -/
theorem search_nonempty_query_contract_witness :
    (∀ r ∈ searchCommands sGit [cexCmdA] none none, 0 < r.score)
    ∧ (searchCommands sGit [cexCmdA] none none).Perm
        (((((none : Option SearchConfig).bind SearchConfig.indexedCommands).getD
            (buildCommandIndex [cexCmdA])).map
          (fun indexed => (⟨indexed.command, scoreQueryTokens (tokenize (normalize sGit))
            indexed (mergeWeights DEFAULT_WEIGHTS
              (((none : Option SearchConfig).bind SearchConfig.weights).getD
                noOverrides))⟩ : SearchResult))).filter
          (fun r => decide (0 < r.score)))
    ∧ (searchCommands sGit [cexCmdA] none none).Pairwise
        (fun a b => b.score < a.score
          ∨ (a.score = b.score ∧ strLe a.command.id b.command.id = true))
    ∧ (∀ n, searchCommands sGit [cexCmdA] (some n) none
        = (searchCommands sGit [cexCmdA] none none).take n) :=
  search_nonempty_query_contract sGit [cexCmdA] none none (by decide)

/-- Witness for claim C4 at the whitespace-only query " ". -/
theorem search_empty_query_contract_witness :
    (searchCommands [32] [cexCmdA] none none).length
      = (match (none : Option Nat) with
        | none => ([cexCmdA] : List Command).length
        | some n => min n ([cexCmdA] : List Command).length)
    ∧ ((searchCommands [32] [cexCmdA] none none).map SearchResult.command).Perm [cexCmdA]
    ∧ (searchCommands [32] [cexCmdA] none none).Pairwise
        (fun a b => strLe a.command.id b.command.id = true)
    ∧ (∀ r ∈ searchCommands [32] [cexCmdA] none none, r.score = 0)
    ∧ (∀ n, searchCommands [32] [cexCmdA] (some n) none
        = (searchCommands [32] [cexCmdA] none none).take n) :=
  search_empty_query_contract [32] [cexCmdA] none none (by decide)

/-- Reading the reference just allocated returns the allocated array. -/
theorem storeGet_concat (st : Store) (a : List Command) :
    storeGet (st ++ [a]) st.length = a := by
  unfold storeGet
  rw [List.getD_eq_getElem?_getD, List.getElem?_concat_length]
  rfl

/-- Reading a reference just overwritten returns the written array. -/
theorem storeGet_set_self (st : Store) (a : List Command) {r : Nat} (h : r < st.length) :
    storeGet (st.set r a) r = a := by
  unfold storeGet
  rw [List.getD_eq_getElem?_getD, List.getElem?_set_self h]
  rfl

/-- The store model computes the same result list as the pure function on the
array the reference denotes. -/
theorem searchCommandsStore_fst (query : Str) (commandsRef : Nat) (limit : Option Nat)
    (config : Option SearchConfig) (st : Store) :
    (searchCommandsStore query commandsRef limit config st).1
      = searchCommands query (storeGet st commandsRef) limit config := by
  simp only [searchCommandsStore]
  by_cases h : (normalize query).isEmpty
  · rw [if_pos h]
    dsimp only [storeAlloc, storeSet]
    rw [searchCommands_empty_eq query (storeGet st commandsRef) limit config
      (List.isEmpty_iff.mp h)]
    rw [storeGet_concat st (storeGet st commandsRef)]
    rw [storeGet_set_self _ _ (by simp)]
  · rw [if_neg h]

/-- Claim C5: searchCommands leaves the caller-visible command arrays of the
store unchanged on every path; in particular the record sequence the caller
passed in is, after the call, exactly what it was before. -/
theorem search_preserves_records (query : Str) (commandsRef : Nat) (limit : Option Nat)
    (config : Option SearchConfig) (st : Store) (r : Nat) (hr : r < st.length) :
    storeGet ((searchCommandsStore query commandsRef limit config st).2) r
      = storeGet st r := by
  simp only [searchCommandsStore]
  by_cases h : (normalize query).isEmpty
  · rw [if_pos h]
    simp only [storeAlloc, storeSet]
    exact storeGet_alloc_set st _ _ hr
  · rw [if_neg h]

/-- Witness for claim C5 at a one-array store. -/
theorem search_preserves_records_witness :
    storeGet ((searchCommandsStore sGit 0 none none [[cexCmdA]]).2) 0
      = storeGet [[cexCmdA]] 0 :=
  search_preserves_records sGit 0 none none [[cexCmdA]] 0 (by decide)

/-- Lowercasing absorbs a prior uppercasing, code point by code point. -/
theorem toLower_toUpper (c : Nat) : jsToLowerCode (jsToUpperCode c) = jsToLowerCode c := by
  unfold jsToLowerCode jsToUpperCode
  split_ifs <;> omega

/-- Uppercasing the query does not change its normalization. -/
theorem normalize_toUpperStr (q : Str) : normalize (toUpperStr q) = normalize q := by
  unfold normalize toLowerStr toUpperStr
  rw [List.map_map]
  have hmap : (jsToLowerCode ∘ jsToUpperCode) = jsToLowerCode := funext toLower_toUpper
  rw [hmap]

/-- Claim C7: search is invariant under uppercasing the query; which records
are returned, their scores and their order cannot change. -/
theorem search_case_insensitive (query : Str) (commands : List Command) (limit : Option Nat)
    (config : Option SearchConfig) :
    searchCommands (toUpperStr query) commands limit config
      = searchCommands query commands limit config := by
  unfold searchCommands
  rw [normalize_toUpperStr]

/-- Claim C8: every score in a search result lies in the unit interval, for
every configuration, weight override included. -/
theorem search_scores_in_unit_interval (query : Str) (commands : List Command)
    (limit : Option Nat) (config : Option SearchConfig) (r : SearchResult)
    (hr : r ∈ searchCommands query commands limit config) :
    0 ≤ r.score ∧ r.score ≤ 1 := by
  by_cases h : normalize query = []
  · rw [searchCommands_empty_eq query commands limit config h] at hr
    rw [List.mem_map] at hr
    obtain ⟨c, _, hc⟩ := hr
    rw [← hc]
    exact ⟨le_refl 0, zero_le_one⟩
  · rw [searchCommands_nonempty_eq query commands limit config h] at hr
    have hr2 := takeOpt_subset limit _ r hr
    rw [List.mem_mergeSort, List.mem_filter, List.mem_map] at hr2
    obtain ⟨⟨indexed, _, hi⟩, _⟩ := hr2
    rw [← hi]
    exact ⟨scoreQueryTokens_nonneg _ _ _, scoreQueryTokens_le_one _ _ _⟩

/-- Witness for claim C8 at an empty-query result. -/
theorem search_scores_in_unit_interval_witness :
    0 ≤ (⟨cexCmdA, 0⟩ : SearchResult).score ∧ (⟨cexCmdA, 0⟩ : SearchResult).score ≤ 1 :=
  search_scores_in_unit_interval [] [cexCmdA] none none ⟨cexCmdA, 0⟩
    (by rw [searchCommands_empty_eq [] [cexCmdA] none none rfl]; simp [takeOpt])

/-- Claim C9: when a prebuilt index is supplied and the query normalization
is non-empty, the commands argument has no influence on the result. -/
theorem search_indexed_ignores_records (query : Str) (c1 c2 : List Command)
    (limit : Option Nat) (idx : List IndexedCommand) (pw : Option PartialSearchWeights)
    (h : normalize query ≠ []) :
    searchCommands query c1 limit (some ⟨some idx, pw⟩)
      = searchCommands query c2 limit (some ⟨some idx, pw⟩) := by
  rw [searchCommands_nonempty_eq query c1 limit (some ⟨some idx, pw⟩) h,
      searchCommands_nonempty_eq query c2 limit (some ⟨some idx, pw⟩) h]
  simp only [Option.some_bind, Option.getD_some]

/-- Witness for claim C9: with a supplied (empty) index, searching over no
records and over one record coincide. -/
theorem search_indexed_ignores_records_witness :
    searchCommands sGit [] none (some ⟨some [], none⟩)
      = searchCommands sGit [cexCmdA] none (some ⟨some [], none⟩) :=
  search_indexed_ignores_records sGit [] [cexCmdA] none [] none (by decide)

/-- Claim C10: after any hook action, the exposed activeIndex is 0 when the
derived result list is empty and otherwise lies in [0, results.length),
because the raw index is reduced modulo the result count. -/
theorem hook_activeIndex_in_range (commands : List Command) (lim : Nat) (s : HookState)
    (op : HookOp) :
    ((hookResults commands lim (hookStep commands lim op s)).length = 0 →
      safeActiveIndex commands lim (hookStep commands lim op s) = 0)
    ∧ (0 < (hookResults commands lim (hookStep commands lim op s)).length →
      0 ≤ safeActiveIndex commands lim (hookStep commands lim op s)
      ∧ safeActiveIndex commands lim (hookStep commands lim op s)
          < ((hookResults commands lim (hookStep commands lim op s)).length : Int)) := by
  have haux : ∀ t : HookState,
      ((hookResults commands lim t).length = 0 → safeActiveIndex commands lim t = 0)
      ∧ (0 < (hookResults commands lim t).length →
        0 ≤ safeActiveIndex commands lim t
        ∧ safeActiveIndex commands lim t < ((hookResults commands lim t).length : Int)) := by
    intro t
    constructor
    · intro h0
      unfold safeActiveIndex
      rw [if_pos h0]
    · intro hpos
      unfold safeActiveIndex
      rw [if_neg (by omega)]
      exact wrapIndex_bounds t.activeIndex
        (show (0 : Int) < ((hookResults commands lim t).length : Int) by exact_mod_cast hpos)
  exact haux (hookStep commands lim op s)

end CommandPalette